import Mathlib

/-!
Verification of the pack-distribution optimizer of `temo927/pack-optimizer`
(`backend/internal/app/calculator/service.go`) against its specification.

The core engine `calculator.Compute` is embedded below function by function:

* the sanitizer (service.go:42-52) is `uniquePos` / `sanitize`;
* the DP table builder (service.go:59-93) is `buildTable`, whose inner loop
  over sizes is `chooseStep` / `bestChoice`;
* the selector (service.go:95-103) is the `List.find?` over
  `List.range' amount maxS`;
* the reconstructor (service.go:111-119) is `backtrack` (`bump` is the Go
  `counts[s]++` map update);
* the wrapper `(*Service).Compute` (service.go:145-154) is `ServiceCompute`.

Machine integers are modelled as `Int`/`Nat` (no overflow arises for any
input on which the Go code can allocate its table).  The Go `inf` sentinel
(`const inf`, service.go:60) is modelled as `none` and the `prev` sentinel
`-1` likewise, per the spec's `Unreachable | Reachable` reading; the code's
arithmetic never approaches the sentinel, so the models coincide.  The one
place where the Go code can panic — the read `sizes[len(sizes)-1]` at
service.go:56 when the sanitized slice is empty — is modelled by the `none`
branch of the `Option Result` returned by `Compute`.
-/

set_option maxHeartbeats 1000000

namespace PackOpt

/-- Output of the core calculation (`calculator.Result`, service.go:14-18).
The Go `Counts` field is a `map[int]int`; it is modelled as the association
list the reconstruction loop builds (`bump` models `counts[s]++`). -/
structure Result where
  totalItems : Nat
  totalPacks : Nat
  counts : List (Nat × Nat)
deriving DecidableEq, Repr

/-- `domain.CalculationResult` (domain package of the repository). -/
structure CalculationResult where
  amount : Int
  totalItems : Nat
  overage : Int
  totalPacks : Nat
  breakdown : List (Nat × Nat)
deriving DecidableEq, Repr

/-- The positive entries of `sizes` as naturals, first occurrences kept:
the contents of the Go set `unique` built at service.go:42-47.  The Go
`for s := range unique` extraction order is unspecified; the engine sorts
the extracted slice, and `computeWithOrder_eq_compute` below shows the
extraction order cannot change the result. -/
def uniquePos (sizes : List Int) : List Nat :=
  (sizes.filterMap fun s => if 0 < s then some s.toNat else none).dedup

/-- The sanitizer, service.go:42-52: keep positives, dedupe, sort ascending
(`sort.Ints`). -/
def sanitize (sizes : List Int) : List Nat :=
  (uniquePos sizes).insertionSort (· ≤ ·)

/-- One size-candidate step of the table builder's inner loop
(service.go:79-89).  The accumulator carries `(best, bestS)`; `none` models
the `inf` initialisation of `best` and the `-1` initialisation of `bestS`. -/
def chooseStep (dp : List (Option Nat)) (t : Nat)
    (acc : Option Nat × Option Nat) (s : Nat) : Option Nat × Option Nat :=
  if s ≤ t then
    match dp.getD (t - s) none with
    | none => acc
    | some v =>
      match acc.1 with
      | none => (some (v + 1), some s)
      | some b => if v + 1 < b then (some (v + 1), some s) else acc
  else acc

/-- The table builder's inner loop over all sanitized sizes in ascending
order (service.go:74-93), computing `(dp[t], prev[t])` for one cell `t`. -/
def bestChoice (szs : List Nat) (dp : List (Option Nat)) (t : Nat) :
    Option Nat × Option Nat :=
  szs.foldl (chooseStep dp t) (none, none)

/-- The DP arrays `dp` and `prev` of service.go:59-93 after the outer loop
has filled cells `1..n`; index `t` of each list is cell `t`.  `dp[0] = 0`
(service.go:71); `prev[0]` is never read by the reconstruction loop and is
modelled as `none`. -/
def buildTable (szs : List Nat) : Nat → List (Option Nat) × List (Option Nat)
  | 0 => ([some 0], [none])
  | n + 1 =>
    let st := buildTable szs n
    let c := bestChoice szs st.1 (n + 1)
    (st.1 ++ [c.1], st.2 ++ [c.2])

/-- `counts[s]++` on the Go map (service.go:117), as an association-list
update: increment the entry for `s` if present, else append `(s, 1)`. -/
def bump (m : List (Nat × Nat)) (s : Nat) : List (Nat × Nat) :=
  match m with
  | [] => [(s, 1)]
  | (k, c) :: rest => if k = s then (k, c + 1) :: rest else (k, c) :: bump rest s

/-- The reconstruction loop of service.go:111-119: starting from the
selected total `t`, repeatedly read `s := prev[t]`, stop if `s ≤ 0`
(sentinel), else count one pack of size `s` and continue at `t - s`.
The loop strictly decreases `t`, so fuel `t + 1` never runs out; the
fuel-exhaustion branch returns the counts accumulated so far. -/
def backtrack (prev : List (Option Nat)) :
    Nat → Nat → List (Nat × Nat) → List (Nat × Nat)
  | 0, _, m => m
  | fuel + 1, t, m =>
    if t = 0 then m
    else
      match prev.getD t none with
      | none => m
      | some s => if s = 0 then m else backtrack prev fuel (t - s) (bump m s)

/-- Mirror of `backtrack` returning, instead of the counts, the pair
`(final value of t, number of loop iterations executed)`.  Used to state
termination/completeness of the reconstruction loop. -/
def backtrackTrace (prev : List (Option Nat)) : Nat → Nat → Nat × Nat
  | 0, t => (t, 0)
  | fuel + 1, t =>
    if t = 0 then (0, 0)
    else
      match prev.getD t none with
      | none => (t, 0)
      | some s =>
        if s = 0 then (t, 0)
        else
          let r := backtrackTrace prev fuel (t - s)
          (r.1, r.2 + 1)

/-- Sum of the pack counts in the reconstructed map: the `totalPacks`
accumulation loop of service.go:122-125. -/
def totalOf (m : List (Nat × Nat)) : Nat := (m.map Prod.snd).sum

/-- Total number of items described by a breakdown map: `Σ size × count`. -/
def weightOf (m : List (Nat × Nat)) : Nat := (m.map fun p => p.1 * p.2).sum

/-- The zero result returned on degenerate input (service.go:38) and on the
`bestT == -1` branch (service.go:107). -/
def zeroResult : Result := ⟨0, 0, []⟩

/-- Everything `calculator.Compute` does after the sanitizer has produced
the sorted slice `szs` (service.go:54-131).  `none` models the Go panic
`index out of range` at the read `sizes[len(sizes)-1]` (service.go:56) when
`szs` is empty. -/
def computeOn (amount : Int) (szs : List Nat) : Option Result :=
  match szs.getLast? with
  | none => none
  | some maxS =>
    let a := amount.toNat
    let tu := a + maxS - 1
    let tbl := buildTable szs tu
    match (List.range' a maxS).find? (fun t => (tbl.1.getD t none).isSome) with
    | none => some zeroResult
    | some bestT =>
      let counts := backtrack tbl.2 (bestT + 1) bestT []
      some ⟨bestT, totalOf counts, counts⟩

/-- The core engine `calculator.Compute` (service.go:35-132).  Note the
guard at service.go:37 tests emptiness of the *raw* `sizes` slice, before
sanitization. -/
def Compute (amount : Int) (sizes : List Int) : Option Result :=
  if amount ≤ 0 ∨ sizes = [] then some zeroResult
  else computeOn amount (sanitize sizes)

/-- `Compute` as it would run if the Go `for s := range unique` map
iteration (service.go:49-51) extracted the deduplicated positive sizes in
the order given by `u`; the engine then sorts `u` and proceeds.  Used to
state that the unordered map pass cannot influence the result. -/
def computeWithOrder (amount : Int) (sizes : List Int) (u : List Nat) :
    Option Result :=
  if amount ≤ 0 ∨ sizes = [] then some zeroResult
  else computeOn amount (u.insertionSort (· ≤ ·))

/-- The wrapper `(*Service).Compute` (service.go:145-154).  The Go method
always returns a `nil` error, modelled as the always-`none` second
component; `none` overall models a panic propagating out of the core. -/
def ServiceCompute (amount : Int) (sizes : List Int) :
    Option (CalculationResult × Option String) :=
  (Compute amount sizes).map fun r =>
    (⟨amount, r.totalItems, (r.totalItems : Int) - amount, r.totalPacks,
      r.counts⟩, none)

/-- `l` is a multiset of packs drawn from the size list `szs` (with
repetition). -/
def IsCombo (szs : List Nat) (l : List Nat) : Prop := ∀ x ∈ l, x ∈ szs

/-- `t` is achievable as the sum of some multiset of packs drawn from
`szs`. -/
def ReachableSum (szs : List Nat) (t : Nat) : Prop :=
  ∃ l : List Nat, IsCombo szs l ∧ l.sum = t

/-! ### Characterisation of the inner loop (`bestChoice`)

The fold `bestChoice` is shown equal to a first-minimum selection over the
candidate list: `candOf dp t s` is the candidate `(s, dp[t-s]+1)` offered by
size `s` (or `none` if `s > t` or `dp[t-s]` is unreachable), and `firstMin`
keeps the earliest candidate of minimal pack count, exactly as the strict
`<` update in the Go loop does. -/

/-- The candidate `(s, dp[t-s]+1)` that size `s` offers for cell `t`. -/
def candOf (dp : List (Option Nat)) (t s : Nat) : Option (Nat × Nat) :=
  if s ≤ t then (dp.getD (t - s) none).map (fun v => (s, v + 1)) else none

/-- Merge two optional candidates, keeping the second only on strictly
smaller pack count (the `<` of service.go:84). -/
def mergeCand : Option (Nat × Nat) → Option (Nat × Nat) → Option (Nat × Nat)
  | none, m => m
  | some p, none => some p
  | some p, some q => if q.2 < p.2 then some q else some p

/-- The earliest minimal candidate among the sizes of `l` for cell `t`. -/
def firstMin (dp : List (Option Nat)) (t : Nat) : List Nat → Option (Nat × Nat)
  | [] => none
  | s :: rest => mergeCand (candOf dp t s) (firstMin dp t rest)

/-- Fold an optional candidate into the `(best, bestS)` accumulator. -/
def combine (acc : Option Nat × Option Nat) :
    Option (Nat × Nat) → Option Nat × Option Nat
  | none => acc
  | some p =>
    match acc.1 with
    | none => (some p.2, some p.1)
    | some b => if p.2 < b then (some p.2, some p.1) else acc

theorem chooseStep_eq_combine (dp : List (Option Nat)) (t : Nat)
    (acc : Option Nat × Option Nat) (s : Nat) :
    chooseStep dp t acc s = combine acc (candOf dp t s) := by
  rcases acc with ⟨a1, a2⟩
  unfold chooseStep candOf
  by_cases hst : s ≤ t
  · simp only [if_pos hst]
    cases hdp : dp.getD (t - s) none with
    | none => simp [combine]
    | some v =>
      cases a1 with
      | none => simp [combine]
      | some b => by_cases hlt : v + 1 < b <;> simp [combine, hlt]
  · simp [if_neg hst, combine]

theorem combine_combine (acc : Option Nat × Option Nat)
    (c m : Option (Nat × Nat)) :
    combine (combine acc c) m = combine acc (mergeCand c m) := by
  rcases acc with ⟨a1, a2⟩
  cases c with
  | none => cases m <;> rfl
  | some p =>
    cases m with
    | none => rfl
    | some q =>
      rcases p with ⟨s, w⟩
      rcases q with ⟨s', w'⟩
      cases a1 with
      | none =>
        by_cases h : w' < w
        · simp [combine, mergeCand, h, Nat.lt_of_lt_of_le h (Nat.le_refl w)]
        · simp [combine, mergeCand, h]
      | some b =>
        by_cases h1 : w < b
        · by_cases h2 : w' < w
          · have h3 : w' < b := Nat.lt_trans h2 h1
            simp [combine, mergeCand, h1, h2, h3]
          · simp [combine, mergeCand, h1, h2]
        · by_cases h2 : w' < w
          · by_cases h3 : w' < b
            · simp [combine, mergeCand, h1, h2, h3]
            · simp [combine, mergeCand, h1, h2, h3]
          · have h3 : ¬ w' < b := by omega
            simp [combine, mergeCand, h1, h2, h3]

theorem foldl_chooseStep_eq (dp : List (Option Nat)) (t : Nat) :
    ∀ (l : List Nat) (acc : Option Nat × Option Nat),
      l.foldl (chooseStep dp t) acc = combine acc (firstMin dp t l) := by
  intro l
  induction l with
  | nil => intro acc; rfl
  | cons s rest ih =>
    intro acc
    show rest.foldl (chooseStep dp t) (chooseStep dp t acc s) = _
    rw [ih, chooseStep_eq_combine, combine_combine]
    rfl

/-- The inner loop equals the earliest-minimal-candidate selection. -/
theorem bestChoice_eq (szs : List Nat) (dp : List (Option Nat)) (t : Nat) :
    bestChoice szs dp t =
      match firstMin dp t szs with
      | none => (none, none)
      | some p => (some p.2, some p.1) := by
  unfold bestChoice
  rw [foldl_chooseStep_eq]
  cases firstMin dp t szs <;> rfl

theorem firstMin_eq_none_iff (dp : List (Option Nat)) (t : Nat) :
    ∀ l : List Nat, firstMin dp t l = none ↔ ∀ s ∈ l, candOf dp t s = none := by
  intro l
  induction l with
  | nil => simp [firstMin]
  | cons s rest ih =>
    simp only [firstMin, List.mem_cons]
    constructor
    · intro h
      cases hc : candOf dp t s with
      | none =>
        rw [hc] at h
        intro x hx
        rcases hx with rfl | hx
        · exact hc
        · exact (ih.mp h) x hx
      | some p =>
        rw [hc] at h
        cases hf : firstMin dp t rest <;> rw [hf] at h <;> simp [mergeCand] at h
        split at h <;> simp at h
    · intro h
      rw [h s (Or.inl rfl), (ih.mpr fun x hx => h x (Or.inr hx))]
      rfl

/-- Any candidate selected by `firstMin` really is a candidate of one of
the listed sizes. -/
theorem firstMin_sound (dp : List (Option Nat)) (t : Nat) :
    ∀ l p, firstMin dp t l = some p → p.1 ∈ l ∧ candOf dp t p.1 = some p := by
  intro l
  induction l with
  | nil => intro p h; simp [firstMin] at h
  | cons s rest ih =>
    intro p h
    simp only [firstMin] at h
    cases hc : candOf dp t s with
    | none =>
      rw [hc] at h
      simp only [mergeCand] at h
      obtain ⟨hm, he⟩ := ih p h
      exact ⟨List.mem_cons_of_mem s hm, he⟩
    | some c =>
      have hc1 : c.1 = s := by
        unfold candOf at hc
        split at hc
        · cases hdp : dp.getD (t - s) none <;> rw [hdp] at hc <;> simp at hc
          exact congrArg Prod.fst hc.symm |>.symm ▸ rfl
        · simp at hc
      rw [hc] at h
      cases hf : firstMin dp t rest with
      | none =>
        rw [hf] at h
        simp only [mergeCand] at h
        cases h
        exact ⟨by rw [hc1]; exact List.mem_cons_self s rest,
          by rw [hc1]; exact hc⟩
      | some q =>
        rw [hf] at h
        simp only [mergeCand] at h
        split at h
        · cases h
          obtain ⟨hm, he⟩ := ih p hf
          exact ⟨List.mem_cons_of_mem s hm, he⟩
        · cases h
          exact ⟨by rw [hc1]; exact List.mem_cons_self s rest,
            by rw [hc1]; exact hc⟩

/-- The candidate selected by `firstMin` has minimal pack count. -/
theorem firstMin_min (dp : List (Option Nat)) (t : Nat) :
    ∀ l p, firstMin dp t l = some p →
      ∀ s ∈ l, ∀ q, candOf dp t s = some q → p.2 ≤ q.2 := by
  intro l
  induction l with
  | nil => intro p _ s hs; simp at hs
  | cons a rest ih =>
    intro p h s hs q hq
    simp only [firstMin] at h
    rcases List.mem_cons.mp hs with rfl | hs'
    · rw [hq] at h
      cases hf : firstMin dp t rest with
      | none => rw [hf] at h; simp only [mergeCand] at h; cases h; exact Nat.le_refl _
      | some r =>
        rw [hf] at h
        simp only [mergeCand] at h
        split at h
        · cases h; omega
        · cases h; exact Nat.le_refl _
    · cases hc : candOf dp t a with
      | none =>
        rw [hc] at h
        exact ih p h s hs' q hq
      | some c =>
        rw [hc] at h
        cases hf : firstMin dp t rest with
        | none =>
          rw [hf] at h
          exact absurd hq (by rw [(firstMin_eq_none_iff dp t rest).mp hf s hs']; simp)
        | some r =>
          rw [hf] at h
          have hr := ih r hf s hs' q hq
          simp only [mergeCand] at h
          split at h
          · cases h; exact hr
          · cases h; omega

/-- Determination of the selected candidate: if `s₀` is a candidate with
pack count `w`, every candidate has count `≥ w`, and every size listed
before `s₀` (for a `<`-sorted list: every smaller size) has count `> w`,
then `firstMin` selects exactly `(s₀, w)`.  This captures the ascending
tie-break of the Go inner loop. -/
theorem firstMin_determined (dp : List (Option Nat)) (t : Nat) :
    ∀ l : List Nat, l.Sorted (· < ·) →
      ∀ s₀ w, s₀ ∈ l → candOf dp t s₀ = some (s₀, w) →
      (∀ s ∈ l, ∀ q, candOf dp t s = some q → w ≤ q.2) →
      (∀ s ∈ l, s < s₀ → ∀ q, candOf dp t s = some q → w < q.2) →
      firstMin dp t l = some (s₀, w) := by
  intro l
  induction l with
  | nil => intro _ s₀ w hmem; simp at hmem
  | cons a rest ih =>
    intro hsort s₀ w hmem hc hmin hfst
    have hsort' : rest.Sorted (· < ·) := hsort.of_cons
    simp only [firstMin]
    rcases List.mem_cons.mp hmem with rfl | hmem'
    · rw [hc]
      cases hf : firstMin dp t rest with
      | none => rfl
      | some r =>
        obtain ⟨hrm, hre⟩ := firstMin_sound dp t rest r hf
        have : w ≤ r.2 := hmin r.1 (List.mem_cons_of_mem _ hrm) r hre
        simp only [mergeCand]
        rw [if_neg (by omega)]
    · have halt : a < s₀ := (List.sorted_cons.mp hsort).1 s₀ hmem'
      have hrest : firstMin dp t rest = some (s₀, w) :=
        ih hsort' s₀ w hmem' hc
          (fun s hs q hq => hmin s (List.mem_cons_of_mem a hs) q hq)
          (fun s hs hlt q hq => hfst s (List.mem_cons_of_mem a hs) hlt q hq)
      rw [hrest]
      cases hca : candOf dp t a with
      | none => rfl
      | some c =>
        have hc2 : w < c.2 := hfst a (List.mem_cons_self a rest) halt c hca
        simp only [mergeCand]
        rw [if_pos hc2]

/-! ### The DP table: lengths, stability, recurrences -/

/-- Cell `t` of the `dp` array (its value never changes once the outer
loop has passed `t`; see `dp_stable`). -/
def dpVal (szs : List Nat) (t : Nat) : Option Nat :=
  ((buildTable szs t).1).getD t none

/-- Cell `t` of the `prev` array. -/
def prevVal (szs : List Nat) (t : Nat) : Option Nat :=
  ((buildTable szs t).2).getD t none

theorem buildTable_fst_length (szs : List Nat) :
    ∀ n, ((buildTable szs n).1).length = n + 1 := by
  intro n
  induction n with
  | zero => rfl
  | succ n ih => simp [buildTable, ih]

theorem buildTable_snd_length (szs : List Nat) :
    ∀ n, ((buildTable szs n).2).length = n + 1 := by
  intro n
  induction n with
  | zero => rfl
  | succ n ih => simp [buildTable, ih]

theorem dp_stable (szs : List Nat) :
    ∀ n t, t ≤ n → ((buildTable szs n).1).getD t none = dpVal szs t := by
  intro n
  induction n with
  | zero => intro t ht; interval_cases t; rfl
  | succ n ih =>
    intro t ht
    rcases Nat.lt_or_ge t (n + 1) with h | h
    · have hlen : t < ((buildTable szs n).1).length := by
        rw [buildTable_fst_length]; omega
      show ((buildTable szs n).1 ++ _).getD t none = _
      rw [List.getD_append _ _ _ _ hlen]
      exact ih t (by omega)
    · have : t = n + 1 := by omega
      subst this
      rfl

theorem prev_stable (szs : List Nat) :
    ∀ n t, t ≤ n → ((buildTable szs n).2).getD t none = prevVal szs t := by
  intro n
  induction n with
  | zero => intro t ht; interval_cases t; rfl
  | succ n ih =>
    intro t ht
    rcases Nat.lt_or_ge t (n + 1) with h | h
    · have hlen : t < ((buildTable szs n).2).length := by
        rw [buildTable_snd_length]; omega
      show ((buildTable szs n).2 ++ _).getD t none = _
      rw [List.getD_append _ _ _ _ hlen]
      exact ih t (by omega)
    · have : t = n + 1 := by omega
      subst this
      rfl

theorem dpVal_zero (szs : List Nat) : dpVal szs 0 = some 0 := rfl

theorem dpVal_succ (szs : List Nat) (n : Nat) :
    dpVal szs (n + 1) = (bestChoice szs ((buildTable szs n).1) (n + 1)).1 := by
  show ((buildTable szs n).1 ++ [_]).getD (n + 1) none = _
  have hlen : n + 1 = ((buildTable szs n).1).length :=
    (buildTable_fst_length szs n).symm
  rw [List.getD_eq_getElem?_getD, hlen, List.getElem?_concat_length]
  rfl

theorem prevVal_succ (szs : List Nat) (n : Nat) :
    prevVal szs (n + 1) = (bestChoice szs ((buildTable szs n).1) (n + 1)).2 := by
  show ((buildTable szs n).2 ++ [_]).getD (n + 1) none = _
  have hlen : n + 1 = ((buildTable szs n).2).length :=
    (buildTable_snd_length szs n).symm
  rw [List.getD_eq_getElem?_getD, hlen, List.getElem?_concat_length]
  rfl

/-- Inside cell `n+1`, the candidate of a positive size `s` reads the
already-final value `dpVal szs (n+1-s)`. -/
theorem candOf_buildTable (szs : List Nat) (n s : Nat) (hs : 0 < s) :
    candOf ((buildTable szs n).1) (n + 1) s =
      if s ≤ n + 1 then (dpVal szs (n + 1 - s)).map (fun v => (s, v + 1))
      else none := by
  unfold candOf
  by_cases hle : s ≤ n + 1
  · rw [if_pos hle, if_pos hle, dp_stable szs n (n + 1 - s) (by omega)]
  · rw [if_neg hle, if_neg hle]

theorem firstMin_isSome_of_cand (dp : List (Option Nat)) (t : Nat)
    (l : List Nat) {s : Nat} {q : Nat × Nat} (hs : s ∈ l)
    (hq : candOf dp t s = some q) : ∃ p, firstMin dp t l = some p := by
  cases hf : firstMin dp t l with
  | none =>
    rw [(firstMin_eq_none_iff dp t l).mp hf s hs] at hq
    cases hq
  | some p => exact ⟨p, rfl⟩

/-! ### Correctness of the DP table

`dpVal szs t` is `some k` exactly when `t` is achievable as a sum of packs
drawn from `szs`, and then `k` is the least number of packs achieving it. -/

/-- Soundness: a reachable cell really has a pack multiset of the recorded
cardinality. -/
theorem dpVal_sound (szs : List Nat) (hpos : ∀ x ∈ szs, 0 < x) :
    ∀ t k, dpVal szs t = some k →
      ∃ l, IsCombo szs l ∧ l.sum = t ∧ l.length = k := by
  intro t
  induction t using Nat.strong_induction_on with
  | _ t ih =>
    intro k hk
    cases t with
    | zero =>
      rw [dpVal_zero] at hk
      cases hk
      exact ⟨[], fun x hx => absurd hx (List.not_mem_nil x), rfl, rfl⟩
    | succ n =>
      rw [dpVal_succ, bestChoice_eq] at hk
      cases hf : firstMin ((buildTable szs n).1) (n + 1) szs with
      | none => rw [hf] at hk; cases hk
      | some p =>
        rw [hf] at hk
        cases hk
        obtain ⟨hmem, hcand⟩ := firstMin_sound _ _ szs p hf
        rw [candOf_buildTable szs n p.1 (hpos p.1 hmem)] at hcand
        split at hcand
        · cases hv : dpVal szs (n + 1 - p.1) with
          | none => rw [hv] at hcand; cases hcand
          | some v =>
            rw [hv] at hcand
            simp only [Option.map_some'] at hcand
            have hpair : (p.1, v + 1) = p := Option.some.inj hcand
            have hp2 : p.2 = v + 1 := by rw [← hpair]
            have hlt : n + 1 - p.1 < n + 1 := by
              have := hpos p.1 hmem; omega
            obtain ⟨l, hcombo, hsum, hlen⟩ := ih (n + 1 - p.1) hlt v hv
            refine ⟨p.1 :: l, ?_, ?_, ?_⟩
            · intro x hx
              rcases List.mem_cons.mp hx with rfl | hx
              · exact hmem
              · exact hcombo x hx
            · have hle : p.1 ≤ n + 1 := by assumption
              simp [hsum]; omega
            · simp [hlen, hp2]
        · cases hcand

/-- Completeness with a bound: every pack multiset summing to `t` shows
`dpVal szs t` reachable with a value at most its cardinality. -/
theorem dpVal_complete (szs : List Nat) (hpos : ∀ x ∈ szs, 0 < x) :
    ∀ t l, IsCombo szs l → l.sum = t →
      ∃ k, dpVal szs t = some k ∧ k ≤ l.length := by
  intro t
  induction t using Nat.strong_induction_on with
  | _ t ih =>
    intro l hcombo hsum
    cases t with
    | zero => exact ⟨0, dpVal_zero szs, Nat.zero_le _⟩
    | succ n =>
      cases l with
      | nil => cases hsum
      | cons x rest =>
        have hx : x ∈ szs := hcombo x (List.mem_cons_self x rest)
        have hxpos : 0 < x := hpos x hx
        have hxle : x ≤ n + 1 := by
          have : x + rest.sum = n + 1 := by simpa using hsum
          omega
        have hrest : rest.sum = n + 1 - x := by
          have : x + rest.sum = n + 1 := by simpa using hsum
          omega
        obtain ⟨v, hv, hvle⟩ :=
          ih (n + 1 - x) (by omega) rest
            (fun y hy => hcombo y (List.mem_cons_of_mem x hy)) hrest
        have hcand : candOf ((buildTable szs n).1) (n + 1) x = some (x, v + 1) := by
          rw [candOf_buildTable szs n x hxpos, if_pos hxle, hv]
          rfl
        obtain ⟨p, hp⟩ := firstMin_isSome_of_cand _ _ szs hx hcand
        have hmin : p.2 ≤ v + 1 := firstMin_min _ _ szs p hp x hx (x, v + 1) hcand
        refine ⟨p.2, ?_, ?_⟩
        · rw [dpVal_succ, bestChoice_eq, hp]
        · simpa using Nat.le_trans hmin (by omega)

/-- Minimality: the recorded value is a lower bound on the cardinality of
every pack multiset summing to `t`. -/
theorem dpVal_min (szs : List Nat) (hpos : ∀ x ∈ szs, 0 < x)
    {t k : Nat} (hk : dpVal szs t = some k) :
    ∀ l, IsCombo szs l → l.sum = t → k ≤ l.length := by
  intro l hcombo hsum
  obtain ⟨k', hk', hle⟩ := dpVal_complete szs hpos t l hcombo hsum
  rw [hk] at hk'
  cases hk'
  exact hle

/-- An unreachable cell admits no pack multiset at all. -/
theorem not_reachable_of_dpVal_none (szs : List Nat)
    (hpos : ∀ x ∈ szs, 0 < x) {t : Nat} (h : dpVal szs t = none) :
    ¬ ReachableSum szs t := by
  rintro ⟨l, hcombo, hsum⟩
  obtain ⟨k, hk, _⟩ := dpVal_complete szs hpos t l hcombo hsum
  rw [h] at hk
  cases hk

/-- For a reachable positive cell, `prev` records a size of the sanitized
set that steps down to a reachable cell with one pack fewer. -/
theorem prevVal_sound (szs : List Nat) (hpos : ∀ x ∈ szs, 0 < x)
    {n k : Nat} (hk : dpVal szs (n + 1) = some k) :
    ∃ s v, prevVal szs (n + 1) = some s ∧ s ∈ szs ∧ 0 < s ∧ s ≤ n + 1 ∧
      dpVal szs (n + 1 - s) = some v ∧ k = v + 1 := by
  rw [dpVal_succ, bestChoice_eq] at hk
  cases hf : firstMin ((buildTable szs n).1) (n + 1) szs with
  | none => rw [hf] at hk; cases hk
  | some p =>
    rw [hf] at hk
    cases hk
    obtain ⟨hmem, hcand⟩ := firstMin_sound _ _ szs p hf
    rw [candOf_buildTable szs n p.1 (hpos p.1 hmem)] at hcand
    split at hcand
    · cases hv : dpVal szs (n + 1 - p.1) with
      | none => rw [hv] at hcand; cases hcand
      | some v =>
        rw [hv] at hcand
        simp only [Option.map_some'] at hcand
        have hpair : (p.1, v + 1) = p := Option.some.inj hcand
        have hp2 : p.2 = v + 1 := by rw [← hpair]
        refine ⟨p.1, v, ?_, hmem, hpos p.1 hmem, by assumption, hv, hp2⟩
        rw [prevVal_succ, bestChoice_eq, hf]
    · cases hcand

/-- Exact determination of one cell of `dp` and `prev` from arithmetic
facts about `dpVal`: if size `s₀` steps to a cell of value `v`, no size
beats `v`, and every strictly smaller size does strictly worse, then the
ascending inner loop records exactly `(v + 1, s₀)` for this cell. -/
theorem cell_determined (szs : List Nat) (hpos : ∀ x ∈ szs, 0 < x)
    (hsort : szs.Sorted (· < ·)) {n s₀ v : Nat}
    (hs₀ : s₀ ∈ szs) (hle : s₀ ≤ n + 1)
    (hv : dpVal szs (n + 1 - s₀) = some v)
    (hmin : ∀ s ∈ szs, s ≤ n + 1 → ∀ u, dpVal szs (n + 1 - s) = some u → v ≤ u)
    (hfst : ∀ s ∈ szs, s < s₀ → s ≤ n + 1 → ∀ u,
      dpVal szs (n + 1 - s) = some u → v < u) :
    dpVal szs (n + 1) = some (v + 1) ∧ prevVal szs (n + 1) = some s₀ := by
  have hcand : candOf ((buildTable szs n).1) (n + 1) s₀ = some (s₀, v + 1) := by
    rw [candOf_buildTable szs n s₀ (hpos s₀ hs₀), if_pos hle, hv]
    rfl
  have hdet : firstMin ((buildTable szs n).1) (n + 1) szs = some (s₀, v + 1) := by
    refine firstMin_determined _ _ szs hsort s₀ (v + 1) hs₀ hcand ?_ ?_
    · intro s hs q hq
      rw [candOf_buildTable szs n s (hpos s hs)] at hq
      split at hq
      · cases hu : dpVal szs (n + 1 - s) with
        | none => rw [hu] at hq; cases hq
        | some u =>
          rw [hu] at hq
          simp only [Option.map_some'] at hq
          have hpair : (s, u + 1) = q := Option.some.inj hq
          have : q.2 = u + 1 := by rw [← hpair]
          have := hmin s hs (by assumption) u hu
          omega
      · cases hq
    · intro s hs hslt q hq
      rw [candOf_buildTable szs n s (hpos s hs)] at hq
      split at hq
      · cases hu : dpVal szs (n + 1 - s) with
        | none => rw [hu] at hq; cases hq
        | some u =>
          rw [hu] at hq
          simp only [Option.map_some'] at hq
          have hpair : (s, u + 1) = q := Option.some.inj hq
          have : q.2 = u + 1 := by rw [← hpair]
          have := hfst s hs hslt (by assumption) u hu
          omega
      · cases hq
  constructor
  · rw [dpVal_succ, bestChoice_eq, hdet]
  · rw [prevVal_succ, bestChoice_eq, hdet]

/-! ### The reconstruction loop -/

theorem totalOf_bump (m : List (Nat × Nat)) (s : Nat) :
    totalOf (bump m s) = totalOf m + 1 := by
  induction m with
  | nil => rfl
  | cons p rest ih =>
    rcases p with ⟨k, c⟩
    unfold bump
    by_cases h : k = s
    · simp [totalOf, h]
      omega
    · simp only [if_neg h]
      simp [totalOf] at ih ⊢
      omega

theorem weightOf_bump (m : List (Nat × Nat)) (s : Nat) :
    weightOf (bump m s) = weightOf m + s := by
  induction m with
  | nil => simp [bump, weightOf]
  | cons p rest ih =>
    rcases p with ⟨k, c⟩
    unfold bump
    by_cases h : k = s
    · subst h
      simp [weightOf, Nat.mul_succ]
      ring
    · simp only [if_neg h]
      simp [weightOf] at ih ⊢
      omega

theorem pos_bump (m : List (Nat × Nat)) (s : Nat)
    (hm : ∀ p ∈ m, 0 < p.2) : ∀ p ∈ bump m s, 0 < p.2 := by
  induction m with
  | nil => intro p hp; simp [bump] at hp; simp [hp]
  | cons q rest ih =>
    rcases q with ⟨k, c⟩
    unfold bump
    by_cases h : k = s
    · simp only [if_pos h]
      intro p hp
      rcases List.mem_cons.mp hp with rfl | hp
      · simp
      · exact hm p (List.mem_cons_of_mem _ hp)
    · simp only [if_neg h]
      intro p hp
      rcases List.mem_cons.mp hp with rfl | hp
      · exact hm (k, c) (List.mem_cons_self _ _)
      · exact ih (fun q hq => hm q (List.mem_cons_of_mem _ hq)) p hp

/-- Full specification of the reconstruction loop run on the final table:
starting from a reachable cell `t ≤ tu` with enough fuel, it adds exactly
`dp[t]` packs totalling exactly `t` items to the accumulated counts, and
keeps all counts positive. -/
theorem backtrack_spec (szs : List Nat) (hpos : ∀ x ∈ szs, 0 < x)
    (tu : Nat) :
    ∀ t, t ≤ tu → ∀ k, dpVal szs t = some k → ∀ fuel, t < fuel →
      ∀ m, totalOf (backtrack ((buildTable szs tu).2) fuel t m) = totalOf m + k ∧
        weightOf (backtrack ((buildTable szs tu).2) fuel t m) = weightOf m + t ∧
        ((∀ p ∈ m, 0 < p.2) →
          ∀ p ∈ backtrack ((buildTable szs tu).2) fuel t m, 0 < p.2) := by
  intro t
  induction t using Nat.strong_induction_on with
  | _ t ih =>
    intro htu k hk fuel hfuel m
    cases t with
    | zero =>
      rw [dpVal_zero] at hk
      cases hk
      cases fuel with
      | zero => omega
      | succ f => exact ⟨rfl, rfl, fun h => h⟩
    | succ n =>
      obtain ⟨s, v, hprev, hmem, hspos, hsle, hv, hkv⟩ :=
        prevVal_sound szs hpos hk
      cases fuel with
      | zero => omega
      | succ f =>
        have hread : ((buildTable szs tu).2).getD (n + 1) none = some s := by
          rw [prev_stable szs tu (n + 1) htu]
          exact hprev
        have hne : ¬ s = 0 := by omega
        show totalOf (backtrack _ (f + 1) (n + 1) m) = _ ∧ _
        simp only [backtrack, hread, if_neg (Nat.succ_ne_zero n), if_neg hne]
        obtain ⟨h1, h2, h3⟩ :=
          ih (n + 1 - s) (by omega) (by omega) v hv f (by omega) (bump m s)
        refine ⟨?_, ?_, ?_⟩
        · rw [h1, totalOf_bump]; omega
        · rw [h2, weightOf_bump]; omega
        · intro hm
          exact h3 (pos_bump m s hm)

/-- The reconstruction loop exits with `t = 0` after exactly `dp[t]`
iterations. -/
theorem backtrackTrace_spec (szs : List Nat) (hpos : ∀ x ∈ szs, 0 < x)
    (tu : Nat) :
    ∀ t, t ≤ tu → ∀ k, dpVal szs t = some k → ∀ fuel, t < fuel →
      backtrackTrace ((buildTable szs tu).2) fuel t = (0, k) := by
  intro t
  induction t using Nat.strong_induction_on with
  | _ t ih =>
    intro htu k hk fuel hfuel
    cases t with
    | zero =>
      rw [dpVal_zero] at hk
      cases hk
      cases fuel with
      | zero => omega
      | succ f => rfl
    | succ n =>
      obtain ⟨s, v, hprev, hmem, hspos, hsle, hv, hkv⟩ :=
        prevVal_sound szs hpos hk
      cases fuel with
      | zero => omega
      | succ f =>
        have hread : ((buildTable szs tu).2).getD (n + 1) none = some s := by
          rw [prev_stable szs tu (n + 1) htu]
          exact hprev
        have hne : ¬ s = 0 := by omega
        show backtrackTrace _ (f + 1) (n + 1) = _
        simp only [backtrackTrace, hread, if_neg (Nat.succ_ne_zero n), if_neg hne]
        rw [ih (n + 1 - s) (by omega) (by omega) v hv f (by omega)]
        simp [hkv]

/-! ### The selector -/

/-- What `List.find?` returns on an ascending integer window: the first
hit, which therefore has no hit below it inside the window. -/
theorem find?_range'_spec (p : Nat → Bool) :
    ∀ n a x, (List.range' a n).find? p = some x →
      a ≤ x ∧ x < a + n ∧ p x = true ∧ ∀ v, a ≤ v → v < x → p v = false := by
  intro n
  induction n with
  | zero => intro a x h; simp at h
  | succ n ih =>
    intro a x h
    rw [List.range'_succ] at h
    by_cases hpa : p a
    · rw [List.find?_cons_of_pos _ hpa] at h
      cases h
      exact ⟨Nat.le_refl _, by omega, hpa, fun v hv1 hv2 => by omega⟩
    · rw [List.find?_cons_of_neg _ hpa] at h
      obtain ⟨h1, h2, h3, h4⟩ := ih (a + 1) x h
      refine ⟨by omega, by omega, h3, ?_⟩
      intro v hv1 hv2
      rcases Nat.eq_or_lt_of_le hv1 with rfl | hlt
      · exact Bool.not_eq_true _ ▸ (by simpa using hpa)
      · exact h4 v (by omega) hv2

/-- If some point of the window satisfies the predicate, `find?` succeeds. -/
theorem find?_range'_isSome (p : Nat → Bool) :
    ∀ n a x, a ≤ x → x < a + n → p x = true →
      ((List.range' a n).find? p).isSome := by
  intro n
  induction n with
  | zero => intro a x h1 h2; omega
  | succ n ih =>
    intro a x h1 h2 h3
    rw [List.range'_succ]
    by_cases hpa : p a
    · rw [List.find?_cons_of_pos _ hpa]; rfl
    · rw [List.find?_cons_of_neg _ hpa]
      have hax : a ≠ x := fun h => hpa (h ▸ h3)
      exact ih (a + 1) x (by omega) (by omega) h3

/-! ### Properties of the sanitizer -/

theorem mem_sanitize (sizes : List Int) (x : Nat) :
    x ∈ sanitize sizes ↔ x ∈ uniquePos sizes :=
  (List.perm_insertionSort (· ≤ ·) (uniquePos sizes)).mem_iff

theorem sanitize_pos (sizes : List Int) : ∀ x ∈ sanitize sizes, 0 < x := by
  intro x hx
  rw [mem_sanitize] at hx
  unfold uniquePos at hx
  rw [List.mem_dedup, List.mem_filterMap] at hx
  obtain ⟨s, _, hs⟩ := hx
  split at hs
  · cases hs; omega
  · cases hs

theorem sanitize_sorted (sizes : List Int) :
    (sanitize sizes).Sorted (· ≤ ·) :=
  List.sorted_insertionSort (· ≤ ·) (uniquePos sizes)

theorem sanitize_nodup (sizes : List Int) : (sanitize sizes).Nodup :=
  ((List.perm_insertionSort (· ≤ ·) (uniquePos sizes)).nodup_iff).mpr
    (List.nodup_dedup _)

theorem sanitize_sorted_lt (sizes : List Int) :
    (sanitize sizes).Sorted (· < ·) :=
  (sanitize_sorted sizes).lt_of_le (sanitize_nodup sizes)

theorem sanitize_nil : sanitize [] = [] := rfl

/-- Some multiple of `maxS` lies in the search window `[a, a + maxS)`
(the §4.2 feasibility argument of the spec). -/
theorem exists_multiple_in_window (a maxS : Nat) (ha : 0 < a)
    (hm : 0 < maxS) : ∃ q, a ≤ maxS * q ∧ maxS * q < a + maxS := by
  refine ⟨(a + maxS - 1) / maxS, ?_, ?_⟩ <;>
  · have h1 := Nat.div_add_mod (a + maxS - 1) maxS
    have h2 : (a + maxS - 1) % maxS < maxS := Nat.mod_lt _ hm
    omega

theorem reachable_multiple (szs : List Nat) {maxS : Nat}
    (hmem : maxS ∈ szs) (q : Nat) : ReachableSum szs (maxS * q) := by
  refine ⟨List.replicate q maxS, ?_, ?_⟩
  · intro x hx
    rw [List.eq_of_mem_replicate hx]
    exact hmem
  · rw [List.sum_replicate, smul_eq_mul, Nat.mul_comm]

/-! ### The master characterisation of `Compute` -/

/-- On non-degenerate input (`amount > 0`, at least one positive size),
`Compute` returns normally; the returned total is the first reachable cell
at or above the amount, its pack count is the table's minimal value there,
and the reconstructed counts sum (weighted and unweighted) to the total
and the pack count, all counts positive.  The last two conjuncts record
the selected total's window bound and the exact reconstruction call, for
use by the termination analysis. -/
theorem compute_spec (amount : Int) (sizes : List Int)
    (h1 : 0 < amount) (h2 : sanitize sizes ≠ []) :
    ∃ r, Compute amount sizes = some r ∧
      amount.toNat ≤ r.totalItems ∧
      dpVal (sanitize sizes) r.totalItems = some r.totalPacks ∧
      (∀ v, amount.toNat ≤ v → v < r.totalItems →
        dpVal (sanitize sizes) v = none) ∧
      totalOf r.counts = r.totalPacks ∧
      weightOf r.counts = r.totalItems ∧
      (∀ p ∈ r.counts, 0 < p.2) ∧
      r.totalItems < amount.toNat + (sanitize sizes).getLast?.getD 0 ∧
      r.counts = backtrack
        ((buildTable (sanitize sizes)
          (amount.toNat + (sanitize sizes).getLast?.getD 0 - 1)).2)
        (r.totalItems + 1) r.totalItems [] := by
  set szs := sanitize sizes with hszs
  have hpos : ∀ x ∈ szs, 0 < x := sanitize_pos sizes
  cases hlast : szs.getLast? with
  | none => exact absurd (List.getLast?_eq_none_iff.mp hlast) h2
  | some maxS =>
    have hmaxmem : maxS ∈ szs := by
      obtain ⟨hne, heq⟩ :=
        List.mem_getLast?_eq_getLast (Option.mem_def.mpr hlast)
      rw [heq]
      exact List.getLast_mem hne
    have hmaxpos : 0 < maxS := hpos maxS hmaxmem
    set a := amount.toNat with hadef
    have ha : 0 < a := by omega
    set tu := a + maxS - 1 with htudef
    -- some cell of the window is reachable, so the selector succeeds
    obtain ⟨q, hq1, hq2⟩ := exists_multiple_in_window a maxS ha hmaxpos
    obtain ⟨l, hlc, hls⟩ := reachable_multiple szs hmaxmem q
    obtain ⟨km, hkm, _⟩ := dpVal_complete szs hpos (maxS * q) l hlc hls
    have hp_stable : ∀ t, t ≤ tu →
        (((buildTable szs tu).1.getD t none).isSome =
          (dpVal szs t).isSome) := by
      intro t ht
      rw [dp_stable szs tu t ht]
    have hsome : (((List.range' a maxS).find?
        (fun t => ((buildTable szs tu).1.getD t none).isSome))).isSome := by
      apply find?_range'_isSome _ maxS a (maxS * q) hq1 hq2
      rw [hp_stable (maxS * q) (by omega), hkm]
      rfl
    obtain ⟨bestT, hfind⟩ := Option.isSome_iff_exists.mp hsome
    obtain ⟨hbt1, hbt2, hbt3, hbt4⟩ := find?_range'_spec _ maxS a bestT hfind
    have hbtu : bestT ≤ tu := by omega
    obtain ⟨k, hk⟩ : ∃ k, dpVal szs bestT = some k := by
      rw [hp_stable bestT hbtu] at hbt3
      exact Option.isSome_iff_exists.mp hbt3
    have hnone : ∀ v, a ≤ v → v < bestT → dpVal szs v = none := by
      intro v hv1 hv2
      have := hbt4 v hv1 hv2
      rw [hp_stable v (by omega)] at this
      exact Option.not_isSome_iff_eq_none.mp (by simp [this])
    obtain ⟨hb1, hb2, hb3⟩ :=
      backtrack_spec szs hpos tu bestT hbtu k hk (bestT + 1)
        (Nat.lt_succ_self _) []
    set counts := backtrack ((buildTable szs tu).2) (bestT + 1) bestT []
      with hcounts
    have hguard : ¬ (amount ≤ 0 ∨ sizes = []) := by
      rintro (h | rfl)
      · omega
      · exact h2 sanitize_nil
    have hC : Compute amount sizes =
        computeOn amount szs := by
      unfold Compute
      rw [if_neg hguard]
    have hCO : computeOn amount szs = some ⟨bestT, totalOf counts, counts⟩ := by
      unfold computeOn
      rw [hlast]
      show (match (List.range' a maxS).find?
          (fun t => ((buildTable szs tu).1.getD t none).isSome) with
        | none => some zeroResult
        | some bestT => some ⟨bestT,
            totalOf (backtrack ((buildTable szs tu).2) (bestT + 1) bestT []),
            backtrack ((buildTable szs tu).2) (bestT + 1) bestT []⟩) = _
      rw [hfind]
    refine ⟨⟨bestT, totalOf counts, counts⟩, hC.trans hCO, hbt1, ?_, hnone,
      rfl, ?_, ?_, ?_, ?_⟩
    · show dpVal szs bestT = some (totalOf counts)
      rw [hk, hb1]
      simp [totalOf]
    · show weightOf counts = bestT
      rw [hb2]
      simp [weightOf]
    · exact hb3 (by intro p hp; simp at hp)
    · show bestT < a + (some maxS).getD 0
      simpa using hbt2
    · show counts = backtrack
        ((buildTable szs (a + (some maxS).getD 0 - 1)).2) (bestT + 1) bestT []
      simp [hcounts]

/-! ### The claims -/

/-- **C1** (Rule 2, overage minimality): for `amount > 0` and a non-empty
sanitized size set, no multiset drawn from the sanitized sizes sums to a
value `v` with `amount ≤ v ≤ totalItems − 1`: the returned total is the
smallest reachable total `≥ amount`. -/
theorem overage_minimal (amount : Int) (sizes : List Int) (r : Result)
    (h1 : 0 < amount) (h2 : sanitize sizes ≠ [])
    (hr : Compute amount sizes = some r) :
    ∀ l, IsCombo (sanitize sizes) l →
      ¬ (amount ≤ (l.sum : Int) ∧ (l.sum : Int) ≤ (r.totalItems : Int) - 1) := by
  obtain ⟨r', hr', hge, hdp, hnone, _⟩ := compute_spec amount sizes h1 h2
  rw [hr] at hr'
  obtain rfl := Option.some.inj hr'
  rintro l hl ⟨hlo, hhi⟩
  have hv1 : amount.toNat ≤ l.sum := by omega
  have hv2 : l.sum < r.totalItems := by omega
  exact not_reachable_of_dpVal_none (sanitize sizes) (sanitize_pos sizes)
    (hnone l.sum hv1 hv2) ⟨l, hl, rfl⟩

theorem overage_minimal_witness :
    (0 : Int) < 1 ∧ sanitize [2, 3] ≠ [] ∧
      Compute 1 [2, 3] = some ⟨2, 1, [(2, 1)]⟩ ∧
      ∀ l, IsCombo (sanitize [2, 3]) l →
        ¬ ((1 : Int) ≤ (l.sum : Int) ∧
          (l.sum : Int) ≤ ((2 : Nat) : Int) - 1) :=
  ⟨by norm_num, by decide, by decide,
    overage_minimal 1 [2, 3] ⟨2, 1, [(2, 1)]⟩ (by norm_num) (by decide)
      (by decide)⟩

/-- **C2** (Rule 3, pack minimality given Rule 2): no multiset drawn from
the sanitized sizes summing exactly to the returned `totalItems` has
fewer packs than the returned `totalPacks`. -/
theorem pack_minimal (amount : Int) (sizes : List Int) (r : Result)
    (h1 : 0 < amount) (h2 : sanitize sizes ≠ [])
    (hr : Compute amount sizes = some r) :
    ∀ l, IsCombo (sanitize sizes) l → l.sum = r.totalItems →
      r.totalPacks ≤ l.length := by
  obtain ⟨r', hr', hge, hdp, _⟩ := compute_spec amount sizes h1 h2
  rw [hr] at hr'
  obtain rfl := Option.some.inj hr'
  intro l hl hs
  exact dpVal_min (sanitize sizes) (sanitize_pos sizes) hdp l hl hs

theorem pack_minimal_witness :
    (0 : Int) < 1 ∧ sanitize [2, 3] ≠ [] ∧
      Compute 1 [2, 3] = some ⟨2, 1, [(2, 1)]⟩ ∧
      ∀ l, IsCombo (sanitize [2, 3]) l → l.sum = (2 : Nat) →
        (1 : Nat) ≤ l.length :=
  ⟨by norm_num, by decide, by decide,
    pack_minimal 1 [2, 3] ⟨2, 1, [(2, 1)]⟩ (by norm_num) (by decide)
      (by decide)⟩

/-- **C3** (feasibility / lower bound): for `amount > 0` and a non-empty
sanitized size set the engine returns normally with
`totalItems ≥ amount` — the selector always finds a reachable total in
the window, so the `bestT == -1` branch is unreachable under this
precondition. -/
theorem compute_feasible (amount : Int) (sizes : List Int)
    (h1 : 0 < amount) (h2 : sanitize sizes ≠ []) :
    ∃ r, Compute amount sizes = some r ∧ amount ≤ (r.totalItems : Int) := by
  obtain ⟨r, hr, hge, _⟩ := compute_spec amount sizes h1 h2
  exact ⟨r, hr, by omega⟩

theorem compute_feasible_witness :
    (0 : Int) < 1 ∧ sanitize [2, 3] ≠ [] ∧
      ∃ r, Compute 1 [2, 3] = some r ∧ (1 : Int) ≤ (r.totalItems : Int) :=
  ⟨by norm_num, by decide, compute_feasible 1 [2, 3] (by norm_num) (by decide)⟩

/-- **C4** (exactness of the breakdown): the breakdown's weighted sum
`Σ size × count` equals `totalItems`, every recorded count is strictly
positive, and `totalPacks` is the sum of the counts. -/
theorem breakdown_exact (amount : Int) (sizes : List Int) (r : Result)
    (h1 : 0 < amount) (h2 : sanitize sizes ≠ [])
    (hr : Compute amount sizes = some r) :
    weightOf r.counts = r.totalItems ∧ (∀ p ∈ r.counts, 0 < p.2) ∧
      totalOf r.counts = r.totalPacks := by
  obtain ⟨r', hr', _, _, _, htot, hw, hpos, _⟩ := compute_spec amount sizes h1 h2
  rw [hr] at hr'
  obtain rfl := Option.some.inj hr'
  exact ⟨hw, hpos, htot⟩

theorem breakdown_exact_witness :
    (0 : Int) < 1 ∧ sanitize [2, 3] ≠ [] ∧
      Compute 1 [2, 3] = some ⟨2, 1, [(2, 1)]⟩ ∧
      (weightOf [(2, 1)] = (2 : Nat) ∧ (∀ p ∈ [((2 : Nat), (1 : Nat))], 0 < p.2) ∧
        totalOf [(2, 1)] = (1 : Nat)) :=
  ⟨by norm_num, by decide, by decide,
    breakdown_exact 1 [2, 3] ⟨2, 1, [(2, 1)]⟩ (by norm_num) (by decide)
      (by decide)⟩

/-- **C5** (degeneracy, failing part): the claim says a non-empty sizes
list containing only non-positive values yields the zero Result, but the
guard at service.go:37 tests the *raw* slice, so `Compute(1, [0])` reaches
the read `sizes[len(sizes)-1]` on the emptied slice and panics (modelled
as `none`) instead of returning the zero Result. -/
theorem compute_panics_on_sanitized_empty : Compute 1 [0] = none := by decide

/-- **C6** (totality, failing part): `Compute` does *not* return normally
on every input: whenever `amount > 0` and `sizes` is non-empty but
sanitizes to the empty set, the `sizes[len(sizes)-1]` read at
service.go:56 is out of bounds (the error branch of the embedding is
reached, modelling the Go panic). -/
theorem compute_none_of_sanitize_empty (a : Int) (s : List Int)
    (h1 : 0 < a) (h2 : s ≠ []) (h3 : sanitize s = []) :
    Compute a s = none := by
  have hguard : ¬ (a ≤ 0 ∨ s = []) := by
    rintro (h | rfl)
    · omega
    · exact h2 rfl
  unfold Compute
  rw [if_neg hguard]
  unfold computeOn
  rw [h3]
  rfl

theorem compute_none_of_sanitize_empty_witness :
    (0 : Int) < 2 ∧ ([-1] : List Int) ≠ [] ∧ sanitize [-1] = [] ∧
      Compute 2 [-1] = none :=
  ⟨by norm_num, by decide, by decide,
    compute_none_of_sanitize_empty 2 [-1] (by norm_num) (by decide) (by decide)⟩

/-- **C8** (reconstruction termination and completeness): on
non-degenerate input the backtracking loop, run from the selected total
with its actual fuel, exits with `t = 0` after exactly `totalPacks`
iterations; moreover from every reachable positive cell the recorded
`prev` size is positive and at most the cell, so each iteration strictly
decreases `t` by a positive chosen size. -/
theorem reconstruction_terminates (amount : Int) (sizes : List Int)
    (r : Result) (h1 : 0 < amount) (h2 : sanitize sizes ≠ [])
    (hr : Compute amount sizes = some r) :
    backtrackTrace
        ((buildTable (sanitize sizes)
          (amount.toNat + (sanitize sizes).getLast?.getD 0 - 1)).2)
        (r.totalItems + 1) r.totalItems = (0, r.totalPacks) ∧
      ∀ t, 0 < t → (dpVal (sanitize sizes) t).isSome →
        ∃ s, prevVal (sanitize sizes) t = some s ∧ 0 < s ∧ s ≤ t := by
  obtain ⟨r', hr', hge, hdp, _, _, _, _, hwin, _⟩ :=
    compute_spec amount sizes h1 h2
  rw [hr] at hr'
  obtain rfl := Option.some.inj hr'
  constructor
  · exact backtrackTrace_spec (sanitize sizes) (sanitize_pos sizes) _
      r.totalItems (by omega) r.totalPacks hdp (r.totalItems + 1)
      (Nat.lt_succ_self _)
  · intro t ht hsome
    obtain ⟨k, hk⟩ := Option.isSome_iff_exists.mp hsome
    cases t with
    | zero => omega
    | succ n =>
      obtain ⟨s, v, hs, _, hspos, hsle, _⟩ :=
        prevVal_sound (sanitize sizes) (sanitize_pos sizes) hk
      exact ⟨s, hs, hspos, hsle⟩

theorem reconstruction_terminates_witness :
    (0 : Int) < 1 ∧ sanitize [2, 3] ≠ [] ∧
      Compute 1 [2, 3] = some ⟨2, 1, [(2, 1)]⟩ ∧
      backtrackTrace
          ((buildTable (sanitize [2, 3])
            ((1 : Int).toNat + (sanitize [2, 3]).getLast?.getD 0 - 1)).2)
          ((2 : Nat) + 1) 2 = (0, 1) :=
  ⟨by norm_num, by decide, by decide,
    (reconstruction_terminates 1 [2, 3] ⟨2, 1, [(2, 1)]⟩ (by norm_num)
      (by decide) (by decide)).1⟩

/-- **C9** (determinism despite the unordered map pass): whatever order
`u` the Go `for s := range unique` iteration produces — any permutation
of the deduplicated positive sizes — sorting makes the engine's result
identical to `Compute`'s.  Together with the engine being a pure
function of its inputs, repeated calls with identical inputs return
identical results. -/
theorem computeWithOrder_eq_compute (amount : Int) (sizes : List Int)
    (u : List Nat) (hu : u.Perm (uniquePos sizes)) :
    computeWithOrder amount sizes u = Compute amount sizes := by
  unfold computeWithOrder Compute
  by_cases hg : amount ≤ 0 ∨ sizes = []
  · rw [if_pos hg, if_pos hg]
  · rw [if_neg hg, if_neg hg]
    have : u.insertionSort (· ≤ ·) = sanitize sizes :=
      List.eq_of_perm_of_sorted
        ((List.perm_insertionSort _ u).trans
          (hu.trans (List.perm_insertionSort _ (uniquePos sizes)).symm))
        (List.sorted_insertionSort _ u)
        (List.sorted_insertionSort _ (uniquePos sizes))
    rw [this]

theorem computeWithOrder_eq_compute_witness :
    ([2, 3] : List Nat).Perm (uniquePos [3, 2]) ∧
      computeWithOrder 1 [3, 2] [2, 3] = Compute 1 [3, 2] :=
  ⟨by decide, computeWithOrder_eq_compute 1 [3, 2] [2, 3] (by decide)⟩

/-- **C10** (wrapper behaviour): whenever `(*Service).Compute` returns, it
returns a `nil` error and `Overage = TotalItems − amount`; in particular,
for `amount > 0` with an empty size list the core returns the zero Result
and the reported overage is `-amount`, which is negative. -/
theorem serviceCompute_wrapper :
    (∀ (a : Int) (s : List Int) out, ServiceCompute a s = some out →
      out.2 = none ∧ out.1.overage = (out.1.totalItems : Int) - a) ∧
    (∀ a : Int, 0 < a →
      ServiceCompute a [] = some (⟨a, 0, -a, 0, []⟩, none)) := by
  constructor
  · intro a s out h
    unfold ServiceCompute at h
    cases hc : Compute a s with
    | none => rw [hc] at h; cases h
    | some r =>
      rw [hc] at h
      simp only [Option.map_some'] at h
      obtain rfl := Option.some.inj h.symm
      exact ⟨rfl, rfl⟩
  · intro a ha
    unfold ServiceCompute Compute
    rw [if_pos (Or.inr rfl)]
    simp [zeroResult, zero_sub]

theorem serviceCompute_wrapper_witness :
    ((0 : Int) < 7 ∧ ServiceCompute 7 [] = some (⟨7, 0, -7, 0, []⟩, none)) :=
  ⟨by norm_num, serviceCompute_wrapper.2 7 (by norm_num)⟩

/-! ### The worked scenario `amount = 12001`, `sizes = [250,500,1000,2000,5000]`

The table for this instance has 17001 cells, far too many to evaluate
inside the kernel, so the exact output is derived from the general
theory: the four cells the reconstruction visits are pinned down with
`cell_determined`, and every cell of `[12001, 12249]` is shown
unreachable because all sums of these sizes are multiples of 250. -/

/-- The sanitized size set of the worked scenario of the spec (§8,
scenario 3). -/
def exSizes : List Nat := [250, 500, 1000, 2000, 5000]

theorem exSizes_eq_sanitize : sanitize [250, 500, 1000, 2000, 5000] = exSizes := by
  decide

theorem exSizes_pos : ∀ x ∈ exSizes, 0 < x := by decide

theorem exSizes_sorted : exSizes.Sorted (· < ·) := by
  rw [← exSizes_eq_sanitize]
  exact sanitize_sorted_lt _

theorem exSizes_cases {x : Nat} (hx : x ∈ exSizes) :
    x = 250 ∨ x = 500 ∨ x = 1000 ∨ x = 2000 ∨ x = 5000 := by
  simpa [exSizes] using hx

/-- Version of `cell_determined` taking the cell as a plain positive
numeral. -/
theorem cell_determined' (szs : List Nat) (hpos : ∀ x ∈ szs, 0 < x)
    (hsort : szs.Sorted (· < ·)) {t s₀ v : Nat} (ht : 0 < t)
    (hs₀ : s₀ ∈ szs) (hle : s₀ ≤ t) (hv : dpVal szs (t - s₀) = some v)
    (hmin : ∀ s ∈ szs, s ≤ t → ∀ u, dpVal szs (t - s) = some u → v ≤ u)
    (hfst : ∀ s ∈ szs, s < s₀ → s ≤ t → ∀ u,
      dpVal szs (t - s) = some u → v < u) :
    dpVal szs t = some (v + 1) ∧ prevVal szs t = some s₀ := by
  cases t with
  | zero => omega
  | succ n => exact cell_determined szs hpos hsort hs₀ hle hv hmin hfst

theorem combo_ex_dvd : ∀ l, IsCombo exSizes l → 250 ∣ l.sum := by
  intro l
  induction l with
  | nil => intro _; exact ⟨0, rfl⟩
  | cons x rest ih =>
    intro hc
    have hx : 250 ∣ x := by
      rcases exSizes_cases (hc x (List.mem_cons_self x rest)) with
        rfl | rfl | rfl | rfl | rfl <;> norm_num
    have hrest := ih (fun y hy => hc y (List.mem_cons_of_mem x hy))
    show 250 ∣ (x :: rest).sum
    rw [List.sum_cons]
    exact dvd_add hx hrest

theorem combo_ex_bound : ∀ l, IsCombo exSizes l → l.sum ≤ 5000 * l.length := by
  intro l hc
  have h := List.sum_le_card_nsmul l 5000 (fun x hx => by
    rcases exSizes_cases (hc x hx) with rfl | rfl | rfl | rfl | rfl <;> omega)
  rw [smul_eq_mul] at h
  omega

theorem dpVal_ex_bound {t k : Nat} (h : dpVal exSizes t = some k) :
    t ≤ 5000 * k := by
  obtain ⟨l, hc, hs, hl⟩ := dpVal_sound exSizes exSizes_pos t k h
  have := combo_ex_bound l hc
  omega

theorem dpVal_ex_zero {t : Nat} (h : dpVal exSizes t = some 0) : t = 0 := by
  obtain ⟨l, _, hs, hl⟩ := dpVal_sound exSizes exSizes_pos t 0 h
  rw [List.length_eq_zero] at hl
  subst hl
  exact hs.symm

theorem dpVal_ex_one {t : Nat} (h : dpVal exSizes t = some 1) :
    t ∈ exSizes := by
  obtain ⟨l, hc, hs, hl⟩ := dpVal_sound exSizes exSizes_pos t 1 h
  rw [List.length_eq_one] at hl
  obtain ⟨x, rfl⟩ := hl
  have : x = t := by simpa using hs
  subst this
  exact hc x (List.mem_cons_self x [])

theorem dpVal_ex_two {t : Nat} (h : dpVal exSizes t = some 2) :
    ∃ x ∈ exSizes, ∃ y ∈ exSizes, x + y = t := by
  obtain ⟨l, hc, hs, hl⟩ := dpVal_sound exSizes exSizes_pos t 2 h
  rw [List.length_eq_two] at hl
  obtain ⟨x, y, rfl⟩ := hl
  refine ⟨x, hc x (by simp), y, hc y (by simp), by simpa using hs⟩

theorem dp_ex_5000 :
    dpVal exSizes 5000 = some 1 ∧ prevVal exSizes 5000 = some 5000 := by
  have h := @cell_determined' exSizes exSizes_pos exSizes_sorted
    5000 5000 0 (by norm_num) (by decide) (by norm_num)
    (dpVal_zero exSizes)
    (fun s hs hsle u hu => Nat.zero_le u)
    (by
      intro s hs hlt hsle u hu
      cases u with
      | zero =>
        have := dpVal_ex_zero hu
        rcases exSizes_cases hs with rfl | rfl | rfl | rfl | rfl <;> omega
      | succ u => omega)
  exact h

theorem dp_ex_10000 :
    dpVal exSizes 10000 = some 2 ∧ prevVal exSizes 10000 = some 5000 := by
  have h := @cell_determined' exSizes exSizes_pos exSizes_sorted
    10000 5000 1 (by norm_num) (by decide) (by norm_num)
    dp_ex_5000.1
    (by
      intro s hs hsle u hu
      cases u with
      | zero =>
        have := dpVal_ex_zero hu
        rcases exSizes_cases hs with rfl | rfl | rfl | rfl | rfl <;> omega
      | succ u => omega)
    (by
      intro s hs hlt hsle u hu
      match u with
      | 0 =>
        have := dpVal_ex_zero hu
        rcases exSizes_cases hs with rfl | rfl | rfl | rfl | rfl <;> omega
      | 1 =>
        have hmem := dpVal_ex_one hu
        rcases exSizes_cases hs with rfl | rfl | rfl | rfl | rfl <;>
          rcases exSizes_cases hmem with h' | h' | h' | h' | h' <;> omega
      | u + 2 => omega)
  exact h

theorem dp_ex_12000 :
    dpVal exSizes 12000 = some 3 ∧ prevVal exSizes 12000 = some 2000 := by
  have h := @cell_determined' exSizes exSizes_pos exSizes_sorted
    12000 2000 2 (by norm_num) (by decide) (by norm_num)
    dp_ex_10000.1
    (by
      intro s hs hsle u hu
      have hb := dpVal_ex_bound hu
      rcases exSizes_cases hs with rfl | rfl | rfl | rfl | rfl <;> omega)
    (by
      intro s hs hlt hsle u hu
      have hb := dpVal_ex_bound hu
      rcases exSizes_cases hs with rfl | rfl | rfl | rfl | rfl <;> omega)
  exact h

theorem dp_ex_12250 :
    dpVal exSizes 12250 = some 4 ∧ prevVal exSizes 12250 = some 250 := by
  have h := @cell_determined' exSizes exSizes_pos exSizes_sorted
    12250 250 3 (by norm_num) (by decide) (by norm_num)
    dp_ex_12000.1
    (by
      intro s hs hsle u hu
      have hb := dpVal_ex_bound hu
      match u with
      | 0 => rcases exSizes_cases hs with rfl | rfl | rfl | rfl | rfl <;> omega
      | 1 => rcases exSizes_cases hs with rfl | rfl | rfl | rfl | rfl <;> omega
      | 2 =>
        rcases exSizes_cases hs with rfl | rfl | rfl | rfl | rfl <;>
          first
          | omega
          | (obtain ⟨x, hx, y, hy, hxy⟩ := dpVal_ex_two hu
             rcases exSizes_cases hx with rfl | rfl | rfl | rfl | rfl <;>
               rcases exSizes_cases hy with rfl | rfl | rfl | rfl | rfl <;>
               omega)
      | u + 3 => omega)
    (by
      intro s hs hlt hsle u hu
      rcases exSizes_cases hs with rfl | rfl | rfl | rfl | rfl <;> omega)
  exact h

theorem dp_ex_none : ∀ v, 12001 ≤ v → v < 12250 → dpVal exSizes v = none := by
  intro v h1 h2
  cases hdp : dpVal exSizes v with
  | none => rfl
  | some k =>
    obtain ⟨l, hc, hs, _⟩ := dpVal_sound exSizes exSizes_pos v k hdp
    obtain ⟨c, hcc⟩ := combo_ex_dvd l hc
    omega

theorem find_ex :
    (List.range' 12001 5000).find?
        (fun t => (((buildTable exSizes 17000).1).getD t none).isSome) =
      some 12250 := by
  have hp : ∀ t, t ≤ 17000 →
      ((buildTable exSizes 17000).1).getD t none = dpVal exSizes t :=
    dp_stable exSizes 17000
  have hsome := find?_range'_isSome
    (fun t => (((buildTable exSizes 17000).1).getD t none).isSome)
    5000 12001 12250 (by norm_num) (by norm_num)
    (by
      show (((buildTable exSizes 17000).1).getD 12250 none).isSome = true
      rw [hp 12250 (by norm_num), dp_ex_12250.1]
      rfl)
  obtain ⟨bestT, hfind⟩ := Option.isSome_iff_exists.mp hsome
  obtain ⟨hb1, hb2, hb3, hb4⟩ := find?_range'_spec _ 5000 12001 bestT hfind
  have hbt : bestT = 12250 := by
    rcases Nat.lt_or_ge bestT 12250 with hlt | hge
    · rw [hp bestT (by omega), dp_ex_none bestT hb1 hlt] at hb3
      cases hb3
    · rcases Nat.eq_or_lt_of_le hge with heq | hgt
      · omega
      · have := hb4 12250 (by norm_num) hgt
        rw [hp 12250 (by norm_num), dp_ex_12250.1] at this
        cases this
  rw [hbt] at hfind
  exact hfind

/-- One iteration of the reconstruction loop, on the final table. -/
theorem backtrack_step (szs : List Nat) (tu t s f : Nat)
    (m : List (Nat × Nat)) (htu : t ≤ tu) (ht : ¬ t = 0)
    (hs : prevVal szs t = some s) (hs0 : ¬ s = 0) :
    backtrack ((buildTable szs tu).2) (f + 1) t m =
      backtrack ((buildTable szs tu).2) f (t - s) (bump m s) := by
  show backtrack _ (f + 1) t m = _
  simp only [backtrack, if_neg ht]
  rw [prev_stable szs tu t htu, hs]
  simp [hs0]

/-- The reconstruction loop stops at `t = 0` with the counts built so
far. -/
theorem backtrack_zero (prev : List (Option Nat)) (f : Nat)
    (m : List (Nat × Nat)) : backtrack prev (f + 1) 0 m = m := by
  simp [backtrack]

theorem backtrack_ex :
    backtrack ((buildTable exSizes 17000).2) 12251 12250 [] =
      [(250, 1), (2000, 1), (5000, 2)] := by
  show backtrack ((buildTable exSizes 17000).2) (12250 + 1) 12250 [] = _
  rw [backtrack_step exSizes 17000 12250 250 12250 [] (by norm_num)
    (by norm_num) dp_ex_12250.2 (by norm_num)]
  show backtrack ((buildTable exSizes 17000).2) (12249 + 1) 12000 [(250, 1)] = _
  rw [backtrack_step exSizes 17000 12000 2000 12249 [(250, 1)] (by norm_num)
    (by norm_num) dp_ex_12000.2 (by norm_num)]
  show backtrack ((buildTable exSizes 17000).2) (12248 + 1) 10000
    [(250, 1), (2000, 1)] = _
  rw [backtrack_step exSizes 17000 10000 5000 12248 [(250, 1), (2000, 1)]
    (by norm_num) (by norm_num) dp_ex_10000.2 (by norm_num)]
  show backtrack ((buildTable exSizes 17000).2) (12247 + 1) 5000
    [(250, 1), (2000, 1), (5000, 1)] = _
  rw [backtrack_step exSizes 17000 5000 5000 12247
    [(250, 1), (2000, 1), (5000, 1)] (by norm_num) (by norm_num)
    dp_ex_5000.2 (by norm_num)]
  show backtrack ((buildTable exSizes 17000).2) (12246 + 1) 0
    [(250, 1), (2000, 1), (5000, 2)] = _
  rw [backtrack_zero]

/-- Symbolic unfolding of `computeOn` past the `maxS` read. -/
theorem computeOn_eq (amount : Int) (szs : List Nat) (maxS : Nat)
    (h : szs.getLast? = some maxS) :
    computeOn amount szs =
      match (List.range' amount.toNat maxS).find?
          (fun t => (((buildTable szs (amount.toNat + maxS - 1)).1).getD
            t none).isSome) with
      | none => some zeroResult
      | some bestT => some ⟨bestT,
          totalOf (backtrack ((buildTable szs (amount.toNat + maxS - 1)).2)
            (bestT + 1) bestT []),
          backtrack ((buildTable szs (amount.toNat + maxS - 1)).2)
            (bestT + 1) bestT []⟩ := by
  unfold computeOn
  rw [h]

/-- **C7** (worked scenario with tie-breaking): the example of the spec,
`Compute(12001, [250,500,1000,2000,5000])`, returns exactly
`totalItems = 12250`, `totalPacks = 4`, and the breakdown
`{250: 1, 2000: 1, 5000: 2}` produced by the ascending-size table builder
and the backtracking reconstruction (as a map, `{5000: 2, 2000: 1,
250: 1}`). -/
theorem compute_worked_example :
    Compute 12001 [250, 500, 1000, 2000, 5000] =
      some ⟨12250, 4, [(250, 1), (2000, 1), (5000, 2)]⟩ := by
  have hguard : ¬ ((12001 : Int) ≤ 0 ∨ ([250, 500, 1000, 2000, 5000] : List Int) = []) := by
    rintro (h | h)
    · norm_num at h
    · cases h
  unfold Compute
  rw [if_neg hguard, exSizes_eq_sanitize,
    computeOn_eq 12001 exSizes 5000 rfl]
  have h1 : (12001 : Int).toNat = 12001 := rfl
  rw [h1]
  have h2 : (12001 : Nat) + 5000 - 1 = 17000 := by norm_num
  rw [h2, find_ex]
  show some (⟨12250,
        totalOf (backtrack ((buildTable exSizes 17000).2) (12250 + 1) 12250 []),
        backtrack ((buildTable exSizes 17000).2) (12250 + 1) 12250 []⟩ : Result) =
      some ⟨12250, 4, [(250, 1), (2000, 1), (5000, 2)]⟩
  have h3 : (12250 : Nat) + 1 = 12251 := by norm_num
  rw [h3, backtrack_ex]
  rfl

end PackOpt
